import Mathlib

/-!
Verification of the byte-level signal-processing core of the
signal-neural-network repository.

Shallow embedding conventions:
- Rust `u8` values are modeled as `Nat`; every `u8` arithmetic operation that
  can overflow is made explicit with `% 256` (release-mode wraparound
  semantics); bitwise `u8` operations use `Nat` bitwise operations, and the
  `u8` complement `!d` is `d ^^^ 255`.
- A Rust `&[u8]` slice is a `List Nat` whose elements are below 256.
- The fixed `[u8; 256]` lookup table of `MapperNode` is modeled as a total
  function `Nat → Nat` queried only on the byte domain 0..255; sequential
  in-place writes of the Rust builders become `Function.update` folds, and
  the loops that run over indices 0..255 are guarded with `i < 256`.
- Rust `usize` accumulators are modeled as unbounded `Nat`.
- `sort_unstable` on bytes is modeled by `List.insertionSort (· ≤ ·)`, which
  produces the same (unique) ascending reordering.
- `str::to_lowercase` is modeled by ASCII case folding: all names recognized
  by the resolver are ASCII, where the two functions agree.
-/

set_option maxRecDepth 100000

namespace SNN

/-! ### Combinator strategies (src/snn/src/neural/combinator.rs) -/

/-- AdditionCombinatorNode.combine: `inputs.iter().sum()` over u8, each
addition wrapping modulo 256. -/
def additionCombine (inputs : List Nat) : Nat :=
  inputs.foldl (fun acc x => (acc + x) % 256) 0

/-- MultiplicationCombinatorNode.combine: `inputs.iter().product()` over u8,
each multiplication wrapping modulo 256. -/
def multiplicationCombine (inputs : List Nat) : Nat :=
  inputs.foldl (fun acc x => (acc * x) % 256) 1

/-- MaxCombinatorNode.combine: `inputs.iter().max().unwrap_or(&0)`. -/
def maxCombine (inputs : List Nat) : Nat :=
  (inputs.max?).getD 0

/-- MinCombinatorNode.combine: `inputs.iter().min().unwrap_or(&0)`. -/
def minCombine (inputs : List Nat) : Nat :=
  (inputs.min?).getD 0

/-- AverageCombinatorNode.combine: 0 on empty input, else the exact sum in a
usize accumulator divided by the length, cast back to u8 (`as u8` is modulo
256). -/
def averageCombine (inputs : List Nat) : Nat :=
  if inputs.isEmpty then 0
  else (inputs.sum / inputs.length) % 256

/-- MedianCombinatorNode.combine: 0 on empty input; otherwise sort ascending,
take the middle element for odd length, and for even length add the two middle
elements with wrapping u8 addition and halve. -/
def medianCombine (inputs : List Nat) : Nat :=
  if inputs.isEmpty then 0
  else
    let sorted := List.insertionSort (· ≤ ·) inputs
    let mid := sorted.length / 2
    if sorted.length % 2 = 0 then
      ((sorted.getD (mid - 1) 0 + sorted.getD mid 0) % 256) / 2
    else
      sorted.getD mid 0

/-- ORCombinatorNode.combine: `fold(0, |acc, x| acc | x)`. -/
def orCombine (inputs : List Nat) : Nat :=
  inputs.foldl (fun acc x => acc ||| x) 0

/-- ANDCombinatorNode.combine: `fold(0xFF, |acc, x| acc & x)`. -/
def andCombine (inputs : List Nat) : Nat :=
  inputs.foldl (fun acc x => acc &&& x) 255

/-- XORCombinatorNode.combine: `fold(0, |acc, x| acc ^ x)`. -/
def xorCombine (inputs : List Nat) : Nat :=
  inputs.foldl (fun acc x => acc ^^^ x) 0

/-- NANDCombinatorNode.combine: complement of the AND-reduce. -/
def nandCombine (inputs : List Nat) : Nat :=
  (andCombine inputs) ^^^ 255

/-- NORCombinatorNode.combine: complement of the OR-reduce. -/
def norCombine (inputs : List Nat) : Nat :=
  (orCombine inputs) ^^^ 255

/-- XNORCombinatorNode.combine: complement of the XOR-reduce. -/
def xnorCombine (inputs : List Nat) : Nat :=
  (xorCombine inputs) ^^^ 255

lemma additionCombine_foldl (inputs : List Nat) :
    ∀ a : Nat, a < 256 →
      inputs.foldl (fun acc x => (acc + x) % 256) a = (a + inputs.sum) % 256 := by
  induction inputs with
  | nil =>
    intro a ha
    simp [Nat.mod_eq_of_lt ha]
  | cons x rest ih =>
    intro a ha
    have h1 : (a + x) % 256 < 256 := Nat.mod_lt _ (by norm_num)
    simp only [List.foldl_cons, List.sum_cons]
    rw [ih _ h1, Nat.mod_add_mod]
    ring_nf

lemma multiplicationCombine_foldl (inputs : List Nat) :
    ∀ a : Nat, a < 256 →
      inputs.foldl (fun acc x => (acc * x) % 256) a = (a * inputs.prod) % 256 := by
  induction inputs with
  | nil =>
    intro a ha
    simp [Nat.mod_eq_of_lt ha]
  | cons x rest ih =>
    intro a ha
    have h1 : (a * x) % 256 < 256 := Nat.mod_lt _ (by norm_num)
    simp only [List.foldl_cons, List.prod_cons]
    rw [ih _ h1, Nat.mod_mul_mod, Nat.mul_assoc]

/-- Claim C1: for every byte sequence, the addition strategy computes the sum
reduced modulo 256 and the multiply strategy computes the product reduced
modulo 256; in particular addition [200, 100] = 44 and
multiply [16, 16] = 0. -/
theorem addition_multiply_mod256 :
    (∀ S : List Nat, additionCombine S = S.sum % 256) ∧
    (∀ S : List Nat, multiplicationCombine S = S.prod % 256) ∧
    additionCombine [200, 100] = 44 ∧
    multiplicationCombine [16, 16] = 0 := by
  refine ⟨fun S => ?_, fun S => ?_, by decide, by decide⟩
  · have := additionCombine_foldl S 0 (by norm_num)
    simpa [additionCombine] using this
  · have := multiplicationCombine_foldl S 1 (by norm_num)
    simpa [multiplicationCombine] using this

/-- Claim C2 (code evaluation at the failing input): on [200, 200] the median
strategy adds the two middle bytes with wrapping u8 addition, giving
(200 + 200) mod 256 = 144, halved to 72 — not the exact midpoint 200 the
claim states; the documented even-length examples without overflow do hold. -/
theorem median_wraps_at_failing_input :
    medianCombine [200, 200] = 72 ∧
    (200 + 200) / 2 = 200 ∧
    medianCombine [1, 2, 3, 4] = 2 ∧
    medianCombine [1, 2, 3] = 2 := by
  refine ⟨by decide, by decide, by decide, by decide⟩

/-- Claim C3: empty-input values of the strategies — min, max, average and
median give 0; the AND-reduce gives 0xFF; the OR-reduce and the XOR-reduce
give 0. -/
theorem combinators_empty_input :
    minCombine [] = 0 ∧
    maxCombine [] = 0 ∧
    averageCombine [] = 0 ∧
    medianCombine [] = 0 ∧
    andCombine [] = 255 ∧
    orCombine [] = 0 ∧
    xorCombine [] = 0 := by
  refine ⟨by decide, by decide, by decide, by decide, by decide, by decide, by decide⟩

/-! ### Name-based strategy resolution (combinator_from_str) -/

/-- The closed set of combinator strategies; identity is by canonical
identifier. -/
inductive CombinatorKind where
  | addition
  | multiply
  | max
  | min
  | average
  | median
  | or
  | and
  | xor
  | nand
  | nor
  | xnor
deriving DecidableEq

/-- The IDENTIFIER constant of each combinator node, returned by
`identifier()`. -/
def identifier : CombinatorKind → String
  | .addition => "addition"
  | .multiply => "multiply"
  | .max => "max"
  | .min => "min"
  | .average => "average"
  | .median => "median"
  | .or => "or"
  | .and => "and"
  | .xor => "xor"
  | .nand => "nand"
  | .nor => "nor"
  | .xnor => "xnor"

/-- ASCII case folding of one character, as `str::to_lowercase` acts on the
ASCII range (every name the resolver recognizes is ASCII). -/
def asciiToLower (c : Char) : Char :=
  if 65 ≤ c.toNat ∧ c.toNat ≤ 90 then Char.ofNat (c.toNat + 32) else c

/-- `name.to_lowercase()` on ASCII strings: fold the case of every
character. -/
def lowerStr (s : String) : String := ⟨s.data.map asciiToLower⟩

/-- The sequential arm-by-arm comparison performed by the `match` in
`combinator_from_str` after lowercasing. -/
def resolveLower (n : String) : Option CombinatorKind :=
  if n = "addition" then some .addition
  else if n = "add" then some .addition
  else if n = "+" then some .addition
  else if n = "multiply" then some .multiply
  else if n = "multiplication" then some .multiply
  else if n = "*" then some .multiply
  else if n = "max" then some .max
  else if n = "min" then some .min
  else if n = "average" then some .average
  else if n = "avg" then some .average
  else if n = "median" then some .median
  else if n = "or" then some .or
  else if n = "and" then some .and
  else if n = "xor" then some .xor
  else if n = "nand" then some .nand
  else if n = "nor" then some .nor
  else if n = "xnor" then some .xnor
  else none

/-- combinator_from_str: lowercase the name, then match it against the
canonical identifiers and aliases. -/
def combinator_from_str (name : String) : Option CombinatorKind :=
  resolveLower (lowerStr name)

/-- Every name string (canonical identifier or alias) recognized by
`combinator_from_str` after lowercasing. -/
def recognizedNames : List String :=
  ["addition", "add", "+", "multiply", "multiplication", "*", "max", "min",
   "average", "avg", "median", "or", "and", "xor", "nand", "nor", "xnor"]

lemma toNat_ofNat_small (n : Nat) (h1 : 97 ≤ n) (h2 : n ≤ 122) :
    (Char.ofNat n).toNat = n := by
  interval_cases n <;> decide

lemma asciiToLower_idem (c : Char) :
    asciiToLower (asciiToLower c) = asciiToLower c := by
  unfold asciiToLower
  by_cases h : 65 ≤ c.toNat ∧ c.toNat ≤ 90
  · rw [if_pos h]
    have hv : (Char.ofNat (c.toNat + 32)).toNat = c.toNat + 32 :=
      toNat_ofNat_small _ (by omega) (by omega)
    rw [if_neg]
    rw [hv]
    omega
  · rw [if_neg h, if_neg h]

lemma lowerStr_idem (s : String) : lowerStr (lowerStr s) = lowerStr s := by
  simp [lowerStr, List.map_map, Function.comp_def, asciiToLower_idem]

lemma resolveLower_not_mem (n : String) (h : n ∉ recognizedNames) :
    resolveLower n = none := by
  simp only [recognizedNames, List.mem_cons, List.not_mem_nil, or_false,
    not_or] at h
  obtain ⟨h1, h2, h3, h4, h5, h6, h7, h8, h9, h10, h11, h12, h13, h14, h15,
    h16, h17⟩ := h
  simp [resolveLower, h1, h2, h3, h4, h5, h6, h7, h8, h9, h10, h11, h12, h13,
    h14, h15, h16, h17]

/-! ### MapperNode (src/snn/src/neural/mapper.rs) -/

/-- The fixed 256-entry `[u8; 256]` lookup table, modeled as a total function
on `Nat` queried only on the byte domain 0..255. -/
structure MapperNode where
  tf : Nat → Nat

/-- `MapperNode::new`: all entries 0. -/
def MapperNode.new : MapperNode := ⟨fun _ => 0⟩

/-- `MapperNode::tranform` (spelled as in the source): direct table
lookup. -/
def MapperNode.tranform (m : MapperNode) (input : Nat) : Nat := m.tf input

/-- `MapperNode::new_transformation`: build the table by evaluating the
function over every index 0..255 of a zero-initialized table. -/
def MapperNode.new_transformation (transfn : Nat → Nat) : MapperNode :=
  ⟨fun i => if i < 256 then transfn i else 0⟩

/-- `MapperNode::with_mapdata`: copy the table and write each (key, value)
pair in iteration order. -/
def MapperNode.with_mapdata (m : MapperNode)
    (mapdata : List (Nat × Nat)) : MapperNode :=
  ⟨mapdata.foldl (fun t kv => Function.update t kv.1 kv.2) m.tf⟩

/-- `MapperNode::with_range`: copy the table and write the value at each key
produced by the range, in order. -/
def MapperNode.with_range (m : MapperNode) (range : List Nat)
    (value : Nat) : MapperNode :=
  ⟨range.foldl (fun t c => Function.update t c value) m.tf⟩

/-- `MapperNode::with_modification`: rewrite every entry at index 0..255 with
the modification function applied to the index and the current entry. -/
def MapperNode.with_modification (m : MapperNode)
    (modification : Nat → Nat → Nat) : MapperNode :=
  ⟨fun i => if i < 256 then modification i (m.tf i) else m.tf i⟩

/-- `MapperNode::invert`: pointwise `MAX - value` (255 minus the entry). -/
def MapperNode.invert (m : MapperNode) : MapperNode :=
  m.with_modification (fun _ d => 255 - d)

/-- `MapperNode::not`: pointwise bitwise u8 complement of the entry. -/
def MapperNode.not (m : MapperNode) : MapperNode :=
  m.with_modification (fun _ d => d ^^^ 255)

/-- `MapperNode::and`: pointwise AND of each entry with a constant. -/
def MapperNode.and (m : MapperNode) (v : Nat) : MapperNode :=
  m.with_modification (fun _ d => d &&& v)

/-- `MapperNode::and_node`: AND of each entry with the entry at the same
index of the other map. -/
def MapperNode.and_node (m other : MapperNode) : MapperNode :=
  m.with_modification (fun i d => d &&& other.tf i)

/-- `MapperNode::or`: pointwise OR of each entry with a constant. -/
def MapperNode.or (m : MapperNode) (v : Nat) : MapperNode :=
  m.with_modification (fun _ d => d ||| v)

/-- `MapperNode::or_node`: OR of each entry with the entry at the same index
of the other map. -/
def MapperNode.or_node (m other : MapperNode) : MapperNode :=
  m.with_modification (fun i d => d ||| other.tf i)

/-- `MapperNode::xor`: pointwise XOR of each entry with a constant. -/
def MapperNode.xor (m : MapperNode) (v : Nat) : MapperNode :=
  m.with_modification (fun _ d => d ^^^ v)

/-- `MapperNode::xor_node`: XOR of each entry with the entry at the same
index of the other map. -/
def MapperNode.xor_node (m other : MapperNode) : MapperNode :=
  m.with_modification (fun i d => d ^^^ other.tf i)

/-! ### Mapper presets (src/snn/src/neural/mapper_defaults.rs) -/

/-- A Rust inclusive byte range `a..=b`, empty when a exceeds b. -/
def rangeInclusive (a b : Nat) : List Nat := List.range' a (b + 1 - a)

/-- `create_mapper_for_character`: the character-class tagger, built over a
fresh zero base; digits then lowercase then uppercase then the printable
range 0x21..=0x7E then the range 0x20..=0x0A, later writes overwriting
earlier ones. -/
def create_mapper_for_character : MapperNode :=
  ((((MapperNode.new.with_range (rangeInclusive 48 57) 1).with_range
      (rangeInclusive 97 122) 2).with_range
      (rangeInclusive 65 90) 4).with_range
      (rangeInclusive 33 126) 8).with_range
      (rangeInclusive 32 10) 16

/-- The identity map, as built by `new_transformation(|x| x)`. -/
def identityMapper : MapperNode := MapperNode.new_transformation (fun x => x)

/-- The value written last for a given key by an ordered list of (key, value)
pairs, when any pair has that key. -/
def lastLookup : List (Nat × Nat) → Nat → Option Nat
  | [], _ => none
  | (k, v) :: rest, i =>
    match lastLookup rest i with
    | some w => some w
    | none => if k = i then some v else none

lemma foldl_update_eq_lastLookup (pairs : List (Nat × Nat)) :
    ∀ (t : Nat → Nat) (i : Nat),
      (pairs.foldl (fun t kv => Function.update t kv.1 kv.2) t) i =
        (lastLookup pairs i).getD (t i) := by
  induction pairs with
  | nil => intro t i; rfl
  | cons p rest ih =>
    intro t i
    obtain ⟨k, v⟩ := p
    simp only [List.foldl_cons, lastLookup]
    rw [ih]
    cases h : lastLookup rest i with
    | some w => simp
    | none =>
      simp only [Option.getD_none, Function.update_apply]
      by_cases hk : k = i
      · simp [hk]
      · have hik : ¬i = k := fun he => hk he.symm
        simp [hk, hik]

/-- Claim C4: resolving the canonical identifier of any strategy yields back a
strategy of the same kind, and the aliases add, addition and + all resolve to
a strategy whose identifier is addition. -/
theorem resolve_identifier_roundtrip :
    (∀ k : CombinatorKind, combinator_from_str (identifier k) = some k) ∧
    (combinator_from_str "add").map identifier = some "addition" ∧
    (combinator_from_str "addition").map identifier = some "addition" ∧
    (combinator_from_str "+").map identifier = some "addition" := by
  refine ⟨fun k => ?_, by decide, by decide, by decide⟩
  cases k <;> decide

/-- Claim C5: resolution is case-insensitive in the name argument, any name
whose lowercase form is not a recognized identifier or alias resolves to an
absent result, and in particular the name nonexistent resolves to none. -/
theorem resolve_case_insensitive_unknown_none :
    (∀ s : String, combinator_from_str s = combinator_from_str (lowerStr s)) ∧
    (∀ s : String, lowerStr s ∉ recognizedNames →
      combinator_from_str s = none) ∧
    combinator_from_str "nonexistent" = none := by
  refine ⟨fun s => ?_, fun s h => ?_, by decide⟩
  · simp only [combinator_from_str, lowerStr_idem]
  · exact resolveLower_not_mem _ h

/-- Witness for claim C5 at the concrete unknown name NoSuchStrategy. -/
theorem resolve_unknown_witness :
    lowerStr "NoSuchStrategy" ∉ recognizedNames ∧
    combinator_from_str "NoSuchStrategy" = none :=
  ⟨by decide, resolve_case_insensitive_unknown_none.2.1 "NoSuchStrategy" (by decide)⟩

/-- Claim C6: the whitespace range of the character-class tagger is inverted
and so empty, and the resulting preset tags exactly the printable bytes
0x21..=0x7E with 0x08 (the printable range overwrites the digit and letter
tags) and leaves every other byte, space, tab and newline included, at 0. -/
theorem character_mapper_printable_only :
    rangeInclusive 32 10 = [] ∧
    (∀ b : Fin 256, create_mapper_for_character.tranform b.val =
      if 33 ≤ b.val ∧ b.val ≤ 126 then 8 else 0) := by
  exact ⟨rfl, by decide⟩

lemma sum_le_mul_length (S : List Nat) (h : ∀ x ∈ S, x < 256) :
    S.sum ≤ 255 * S.length := by
  induction S with
  | nil => simp
  | cons x rest ih =>
    have hx : x < 256 := h x (List.mem_cons_self x rest)
    have hr := ih (fun y hy => h y (List.mem_cons_of_mem x hy))
    simp only [List.sum_cons, List.length_cons]
    calc x + rest.sum ≤ 255 + 255 * rest.length := by omega
    _ = 255 * (rest.length + 1) := by ring

/-- Claim C7: on every nonempty byte sequence the average strategy returns
the exact floor of sum divided by length (the widened accumulator never
overflows and the final u8 cast never truncates, since the quotient is at
most 255); on the empty sequence it returns 0; and average [255, 255]
is 255. -/
theorem average_floor_exact :
    (∀ S : List Nat, S ≠ [] → (∀ x ∈ S, x < 256) →
      averageCombine S = S.sum / S.length) ∧
    averageCombine [] = 0 ∧
    averageCombine [255, 255] = 255 := by
  refine ⟨fun S hne hb => ?_, by decide, by decide⟩
  have hlen : 0 < S.length := List.length_pos.mpr hne
  have hdiv : S.sum / S.length ≤ 255 := by
    calc S.sum / S.length ≤ 255 * S.length / S.length :=
      Nat.div_le_div_right (sum_le_mul_length S hb)
    _ = 255 := Nat.mul_div_cancel 255 hlen
  have hiff : S.isEmpty = false := by
    cases S with
    | nil => exact absurd rfl hne
    | cons a l => rfl
  simp only [averageCombine, hiff, Bool.false_eq_true, if_false]
  exact Nat.mod_eq_of_lt (by omega)

/-- Witness for claim C7 at the concrete nonempty byte sequence
[255, 255]. -/
theorem average_floor_witness :
    ([255, 255] : List Nat) ≠ [] ∧
    (∀ x ∈ ([255, 255] : List Nat), x < 256) ∧
    averageCombine [255, 255] =
      List.sum [255, 255] / List.length ([255, 255] : List Nat) :=
  ⟨by decide, by decide, average_floor_exact.1 [255, 255] (by decide) (by decide)⟩

/-- Claim C8: with_mapdata copies the table and applies the pairs as
overrides in iteration order, so the last write for a repeated key wins and
unmentioned keys keep the old value; on the zero map, the pairs
[(1, 42), (255, 99)] give transform 1 = 42, transform 255 = 99 and
transform 0 = 0. -/
theorem with_mapdata_last_write_wins :
    (∀ (m : MapperNode) (pairs : List (Nat × Nat)) (i : Nat),
      (m.with_mapdata pairs).tranform i =
        (lastLookup pairs i).getD (m.tranform i)) ∧
    (MapperNode.new.with_mapdata [(1, 42), (255, 99)]).tranform 1 = 42 ∧
    (MapperNode.new.with_mapdata [(1, 42), (255, 99)]).tranform 255 = 99 ∧
    (MapperNode.new.with_mapdata [(1, 42), (255, 99)]).tranform 0 = 0 := by
  refine ⟨fun m pairs i => ?_, by decide, by decide, by decide⟩
  exact foldl_update_eq_lastLookup pairs m.tf i

/-- Claim C9: the constant bitwise operation and acts pointwise, the node
operation xor_node combines entries at the same index of the two maps, and
on the identity map the constant and gives the input masked by the
constant. -/
theorem bitwise_const_and_positional_node :
    (∀ (m : MapperNode) (v i : Nat), i < 256 →
      (m.and v).tranform i = m.tranform i &&& v) ∧
    (∀ (m other : MapperNode) (i : Nat), i < 256 →
      (m.xor_node other).tranform i = m.tranform i ^^^ other.tranform i) ∧
    (∀ (v : Nat) (b : Fin 256),
      (identityMapper.and v).tranform b.val = b.val &&& v) := by
  refine ⟨fun m v i h => ?_, fun m other i h => ?_, fun v b => ?_⟩
  · simp [MapperNode.and, MapperNode.with_modification, MapperNode.tranform, h]
  · simp [MapperNode.xor_node, MapperNode.with_modification,
      MapperNode.tranform, h]
  · have hb : b.val < 256 := b.isLt
    simp [identityMapper, MapperNode.and, MapperNode.with_modification,
      MapperNode.tranform, MapperNode.new_transformation, hb]

/-- Witness for claim C9 at a concrete map, constant and index. -/
theorem bitwise_const_witness :
    (3 : Nat) < 256 ∧
    (MapperNode.new.and 5).tranform 3 = MapperNode.new.tranform 3 &&& 5 :=
  ⟨by decide, bitwise_const_and_positional_node.1 MapperNode.new 5 3 (by decide)⟩

lemma sub_eq_xor_byte : ∀ d : Fin 256, 255 - d.val = d.val ^^^ 255 := by
  decide

/-- Claim C10: on the byte domain, when the stored entry is itself a byte,
the arithmetic complement 255 minus the entry equals the bitwise complement
of the entry, so invert and not produce the same table entry at every
index. -/
theorem invert_eq_not (m : MapperNode) (i : Nat) (hi : i < 256)
    (hv : m.tranform i < 256) :
    m.invert.tranform i = m.not.tranform i := by
  simp only [MapperNode.invert, MapperNode.not, MapperNode.with_modification,
    MapperNode.tranform, if_pos hi]
  exact sub_eq_xor_byte ⟨m.tf i, hv⟩

/-- Witness for claim C10 at the zero map and index 0. -/
theorem invert_eq_not_witness :
    (0 : Nat) < 256 ∧ MapperNode.new.tranform 0 < 256 ∧
    MapperNode.new.invert.tranform 0 = MapperNode.new.not.tranform 0 :=
  ⟨by decide, by decide, invert_eq_not MapperNode.new 0 (by decide) (by decide)⟩

end SNN
